import Mathlib

/-!
Shallow embedding of the `windowrs` crate (`src/lib.rs`): a sliding-window
iterator over a slice that also emits the imperfect final window.

Modelling conventions:
* Rust slices `&[T]` become `List T`; `usize` becomes `Nat`.
* Rust slice-indexing panics become `Except.error ()`; the checked
  (debug-mode) subtraction `self.len() - 1` likewise panics when `len() = 0`,
  modelled explicitly at its one occurrence in `nth`.
* `Iterator::next`, which returns `Option<Item>` while mutating `self`,
  becomes `Windows T → Except Unit (Option (Window (List T)) × Windows T)`;
  `Except.ok (none, w)` is the normal exhaustion signal.
-/

namespace Windowrs

/-- Rust slice expression `&xs[..j]`: panics when `j > xs.len()`. -/
def sliceTo {T : Type} (xs : List T) (j : Nat) : Option (List T) :=
  if j ≤ xs.length then some (xs.take j) else none

/-- Rust slice expression `&xs[i..]`: panics when `i > xs.len()`. -/
def sliceFrom {T : Type} (xs : List T) (i : Nat) : Option (List T) :=
  if i ≤ xs.length then some (xs.drop i) else none

/-- Rust slice expression `&xs[i..j]`: panics unless `i ≤ j ≤ xs.len()`. -/
def sliceRange {T : Type} (xs : List T) (i j : Nat) : Option (List T) :=
  if i ≤ j ∧ j ≤ xs.length then some ((xs.drop i).take (j - i)) else none

/-- The `Window` container of `src/lib.rs`; the Rust field `end` is a Lean
keyword, so it is called `end_` here. -/
structure Window (V : Type) where
  start : Nat
  end_ : Nat
  value : V
  deriving DecidableEq

/-- `Window::new`: asserts `start <= end` (assert failure modelled as `none`). -/
def Window.new {V : Type} (start end_ : Nat) (value : V) : Option (Window V) :=
  if start ≤ end_ then some ⟨start, end_, value⟩ else none

/-- `Window::map`: builds `Window::new(self.start, self.end, f(self.value))`. -/
def Window.map {V U : Type} (w : Window V) (f : V → U) : Option (Window U) :=
  Window.new w.start w.end_ (f w.value)

/-- `Window::flat_map`: returns `f(self.value)` outright. -/
def Window.flat_map {V U : Type} (w : Window V) (f : V → Window U) : Window U :=
  f w.value

/-- The `Windows` iterator state of `src/lib.rs`. -/
structure Windows (T : Type) where
  elements : List T
  size : Nat
  step : Nat
  start : Nat
  deriving DecidableEq

/-- `Windows::new`: asserts `size > 0`, `step > 0`, `step <= size`
(assert failure modelled as `none`). -/
def Windows.new {T : Type} (elements : List T) (size step : Nat) :
    Option (Windows T) :=
  if 0 < size ∧ 0 < step ∧ step ≤ size then
    some { elements := elements, size := size, step := step, start := 0 }
  else none

/-- `Windows::len`. -/
def Windows.len {T : Type} (w : Windows T) : Nat :=
  if w.elements.isEmpty then 0
  else
    let len := if w.elements.length < w.size then 0 else w.elements.length - w.size
    let ndivs := len / w.step
    let rem := if len % w.step = 0 then 0 else 1
    ndivs + rem + 1

/-- `Windows::next` (the `Iterator` impl). -/
def Windows.next {T : Type} (w : Windows T) :
    Except Unit (Option (Window (List T)) × Windows T) :=
  if w.elements.isEmpty then
    .ok (none, w)
  else
    let size := if w.elements.length < w.size then w.elements.length else w.size
    match sliceTo w.elements size with
    | none => .error ()
    | some v =>
      match Window.new w.start (w.start + size) v with
      | none => .error ()
      | some ret =>
        if size < w.elements.length then
          match sliceFrom w.elements w.step with
          | none => .error ()
          | some rest =>
            .ok (some ret, { w with start := w.start + w.step, elements := rest })
        else
          .ok (some ret, { w with start := w.start + w.step, elements := [] })

/-- `Windows::nth`; the subtraction in `(self.len() - 1)` is checked in debug
builds and the Rust expression is evaluated unconditionally, so the call
panics outright when `len() = 0`. -/
def Windows.nth {T : Type} (w : Windows T) (n : Nat) :
    Except Unit (Option (Window (List T)) × Windows T) :=
  let pos := n * w.step
  if w.len = 0 then .error ()
  else
    let last := (w.len - 1) * w.step
    if last < pos then
      .ok (none, { w with elements := [] })
    else
      let size := if w.elements.length < w.size then w.elements.length else w.size
      match sliceRange w.elements pos (pos + size) with
      | none => .error ()
      | some v =>
        match Window.new pos (pos + size) v with
        | none => .error ()
        | some nthWin =>
          match sliceFrom w.elements (pos + w.step) with
          | none => .error ()
          | some rest =>
            .ok (some nthWin, { w with elements := rest, start := pos + w.step })

/-- `Iterator::last` for `Windows`: consumes `self`, returns no state. -/
def Windows.last {T : Type} (w : Windows T) :
    Except Unit (Option (Window (List T))) :=
  if w.elements.isEmpty then .ok none
  else
    let start := (w.len - 1) * w.step
    match sliceFrom w.elements start with
    | none => .error ()
    | some v =>
      match Window.new start w.elements.length v with
      | none => .error ()
      | some lastWin => .ok (some lastWin)

/-- Pull windows via `next` repeatedly (fuel-bounded), collecting the emitted
windows; stops at exhaustion or on a panic. -/
def Windows.pullList {T : Type} : Windows T → Nat → List (Window (List T))
  | _, 0 => []
  | w, fuel + 1 =>
    match w.next with
    | .error _ => []
    | .ok (none, _) => []
    | .ok (some win, w') => win :: w'.pullList fuel

/-- The generator-validity precondition of the spec: `size > 0`, `step > 0`,
`step <= size`. -/
def Valid {T : Type} (w : Windows T) : Prop :=
  0 < w.size ∧ 0 < w.step ∧ w.step ≤ w.size

instance {T : Type} (w : Windows T) : Decidable (Valid w) := by
  unfold Valid; infer_instance

/-- The remaining-window-count formula as the spec words it:
`0` when the remaining view is empty, otherwise
`tail / step + (1 if tail % step != 0 else 0) + 1` with
`tail = max(0, remaining_length - size)`. -/
def lenSpec {T : Type} (w : Windows T) : Nat :=
  if w.elements.length = 0 then 0
  else
    let tail := max 0 (w.elements.length - w.size)
    tail / w.step + (if tail % w.step ≠ 0 then 1 else 0) + 1

/-! ### Basic facts about `len` -/

theorem Windows.len_formula {T : Type} (w : Windows T) (h : w.elements ≠ []) :
    w.len = (w.elements.length - w.size) / w.step
      + (if (w.elements.length - w.size) % w.step = 0 then 0 else 1) + 1 := by
  unfold Windows.len
  rw [if_neg (by simp [List.isEmpty_iff, h])]
  rcases lt_or_le w.elements.length w.size with hc | hc
  · simp only [if_pos hc, Nat.sub_eq_zero_of_le hc.le]
  · simp only [if_neg (not_lt.mpr hc)]

theorem Windows.len_eq_zero {T : Type} (w : Windows T) :
    w.len = 0 ↔ w.elements = [] := by
  constructor
  · intro h0
    by_contra hne
    rw [w.len_formula hne] at h0
    generalize (w.elements.length - w.size) / w.step = q at h0
    generalize (if (w.elements.length - w.size) % w.step = 0 then 0 else 1) = r at h0
    omega
  · intro h
    unfold Windows.len
    rw [if_pos (by simp [h])]

/-- Arithmetic core of the step lemma: dropping `s` elements from a positive
tail of `t` elements lowers the window count by one. -/
theorem tail_decr (t s : Nat) (hs : 0 < s) (ht : 0 < t) :
    (t - s) / s + (if (t - s) % s = 0 then 0 else 1) + 1
      = t / s + (if t % s = 0 then 0 else 1) := by
  rcases le_or_lt s t with h | h
  · have h1 : t - s + s = t := Nat.sub_add_cancel h
    have h2 : (t - s + s) / s = (t - s) / s + 1 := Nat.add_div_right _ hs
    have h3 : (t - s + s) % s = (t - s) % s := Nat.add_mod_right _ _
    rw [h1] at h2 h3
    rw [h2, h3]
    generalize (t - s) / s = q
    generalize (if (t - s) % s = 0 then 0 else 1) = r
    omega
  · have h0 : t - s = 0 := Nat.sub_eq_zero_of_le h.le
    rw [h0, Nat.zero_div, Nat.zero_mod, Nat.div_eq_of_lt h, Nat.mod_eq_of_lt h,
      if_pos rfl, if_neg (by omega)]

/-- After one `next` on a non-empty view, `len` drops by exactly one
(whatever the new cursor value is). -/
theorem Windows.len_succ {T : Type} (w : Windows T) (hstep : 0 < w.step)
    (hss : w.step ≤ w.size) (h : w.elements ≠ []) (s' : Nat) :
    (Windows.mk (if w.size < w.elements.length then w.elements.drop w.step else [])
        w.size w.step s').len + 1 = w.len := by
  by_cases hc : w.size < w.elements.length
  · have hdrop : 0 < (w.elements.drop w.step).length := by
      rw [List.length_drop]
      omega
    have hne : (w.elements.drop w.step) ≠ [] := by
      intro hnil
      rw [hnil] at hdrop
      simp at hdrop
    rw [if_pos hc]
    rw [Windows.len_formula _ (by simpa using hne), Windows.len_formula _ h]
    simp only [List.length_drop]
    have hrc : w.elements.length - w.step - w.size
        = (w.elements.length - w.size) - w.step := Nat.sub_right_comm _ _ _
    rw [hrc]
    have ht : 0 < w.elements.length - w.size := by omega
    have hd := tail_decr (w.elements.length - w.size) w.step hstep ht
    rw [← hd]
  · rw [if_neg hc]
    have h1 : (Windows.mk ([] : List T) w.size w.step s').len = 0 := by
      rw [Windows.len_eq_zero]
    rw [h1, Windows.len_formula _ h]
    have h2 : w.elements.length - w.size = 0 := by omega
    rw [h2]
    simp

theorem Windows.len_pos {T : Type} (w : Windows T) (h : w.elements ≠ []) :
    0 < w.len := by
  rcases Nat.eq_zero_or_pos w.len with h0 | h0
  · exact absurd (w.len_eq_zero.mp h0) h
  · exact h0

theorem Windows.len_of_le {T : Type} (w : Windows T) (h : w.elements ≠ [])
    (hle : w.elements.length ≤ w.size) : w.len = 1 := by
  rw [w.len_formula h, Nat.sub_eq_zero_of_le hle]
  simp

theorem Windows.one_lt_len_iff {T : Type} (w : Windows T) (hstep : 0 < w.step)
    (h : w.elements ≠ []) : 1 < w.len ↔ w.size < w.elements.length := by
  rw [w.len_formula h]
  have hsub : w.size < w.elements.length ↔ 0 < w.elements.length - w.size := by omega
  rw [hsub]
  rcases Nat.eq_zero_or_pos (w.elements.length - w.size) with ht | ht
  · rw [ht]
    simp
  · refine ⟨fun _ => ht, fun _ => ?_⟩
    by_cases hm : (w.elements.length - w.size) % w.step = 0
    · rw [if_pos hm]
      have hq : 0 < (w.elements.length - w.size) / w.step :=
        Nat.div_pos (Nat.le_of_dvd ht (Nat.dvd_of_mod_eq_zero hm)) hstep
      generalize (w.elements.length - w.size) / w.step = q at hq ⊢
      omega
    · rw [if_neg hm]
      generalize (w.elements.length - w.size) / w.step = q
      omega

/-! ### Closed forms for `next` -/

theorem Windows.next_empty {T : Type} (w : Windows T) (h : w.elements = []) :
    w.next = .ok (none, w) := by
  unfold Windows.next
  rw [if_pos (by simp [h])]

theorem Windows.next_cons {T : Type} (w : Windows T)
    (hss : w.step ≤ w.size) (h : w.elements ≠ []) :
    w.next = .ok (some ⟨w.start,
        w.start + (if w.elements.length < w.size then w.elements.length else w.size),
        w.elements.take
          (if w.elements.length < w.size then w.elements.length else w.size)⟩,
      { w with start := w.start + w.step,
               elements :=
                 if w.size < w.elements.length then w.elements.drop w.step else [] }) := by
  have hem : w.elements.isEmpty = false := by simp [List.isEmpty_iff, h]
  by_cases hc : w.elements.length < w.size
  · simp only [Windows.next, hem, sliceTo, sliceFrom, Window.new, if_pos hc,
      if_neg (show ¬ w.size < w.elements.length by omega)]
    simp [Nat.le_add_right]
  · have hc' : w.size ≤ w.elements.length := by omega
    simp only [Windows.next, hem, sliceTo, sliceFrom, Window.new, if_neg hc]
    by_cases hc2 : w.size < w.elements.length
    · have hstepL : w.step ≤ w.elements.length := by omega
      simp [hc2, hc', hstepL, Nat.le_add_right]
    · simp [hc2, hc', Nat.le_add_right]

theorem Windows.next_ne_error {T : Type} (w : Windows T) (hss : w.step ≤ w.size) :
    w.next ≠ Except.error () := by
  by_cases h : w.elements = []
  · rw [w.next_empty h]
    simp
  · rw [w.next_cons hss h]
    simp

/-! ### `pullList` facts -/

theorem Windows.pullList_nil {T : Type} (w : Windows T) (fuel : Nat)
    (h : w.elements = []) : w.pullList fuel = [] := by
  cases fuel with
  | zero => rfl
  | succ n => simp [Windows.pullList, w.next_empty h]

theorem Windows.pullList_length {T : Type} :
    ∀ (fuel : Nat) (w : Windows T), 0 < w.step → w.step ≤ w.size →
      w.len ≤ fuel → (w.pullList fuel).length = w.len := by
  intro fuel
  induction fuel with
  | zero =>
    intro w _ _ hf
    have h0 : w.len = 0 := Nat.le_zero.mp hf
    simp [Windows.pullList, h0]
  | succ n ih =>
    intro w hstep hss hf
    by_cases h : w.elements = []
    · rw [w.pullList_nil _ h, w.len_eq_zero.mpr h]
      rfl
    · have hw' := w.len_succ hstep hss h (w.start + w.step)
      simp only [Windows.pullList, w.next_cons hss h, List.length_cons]
      have hlen' := ih (Windows.mk
          (if w.size < w.elements.length then w.elements.drop w.step else [])
          w.size w.step (w.start + w.step)) hstep hss (by omega)
      rw [hlen']
      exact hw'

theorem Windows.pullList_start_le {T : Type} :
    ∀ (fuel : Nat) (w : Windows T), w.step ≤ w.size →
      ∀ win ∈ w.pullList fuel, w.start ≤ win.start := by
  intro fuel
  induction fuel with
  | zero =>
    intro w _ win hmem
    simp [Windows.pullList] at hmem
  | succ n ih =>
    intro w hss win hmem
    by_cases h : w.elements = []
    · rw [w.pullList_nil _ h] at hmem
      simp at hmem
    · simp only [Windows.pullList, w.next_cons hss h] at hmem
      rcases List.mem_cons.mp hmem with rfl | hmem'
      · exact le_refl _
      · have hle := ih (Windows.mk
            (if w.size < w.elements.length then w.elements.drop w.step else [])
            w.size w.step (w.start + w.step)) hss win hmem'
        exact le_trans (Nat.le_add_right _ _) hle

theorem Windows.pullList_pairwise {T : Type} :
    ∀ (fuel : Nat) (w : Windows T), 0 < w.step → w.step ≤ w.size →
      (w.pullList fuel).Pairwise (fun a b => a.start < b.start) := by
  intro fuel
  induction fuel with
  | zero =>
    intro w _ _
    simp [Windows.pullList]
  | succ n ih =>
    intro w hstep hss
    by_cases h : w.elements = []
    · rw [w.pullList_nil _ h]
      simp
    · simp only [Windows.pullList, w.next_cons hss h]
      refine List.Pairwise.cons ?_ (ih _ hstep hss)
      intro b hb
      have hle := Windows.pullList_start_le n (Windows.mk
          (if w.size < w.elements.length then w.elements.drop w.step else [])
          w.size w.step (w.start + w.step)) hss b hb
      calc w.start < w.start + w.step := by omega
        _ ≤ b.start := hle

theorem Windows.pullList_start_le_end {T : Type} :
    ∀ (fuel : Nat) (w : Windows T), w.step ≤ w.size →
      ∀ win ∈ w.pullList fuel, win.start ≤ win.end_ := by
  intro fuel
  induction fuel with
  | zero =>
    intro w _ win hmem
    simp [Windows.pullList] at hmem
  | succ n ih =>
    intro w hss win hmem
    by_cases h : w.elements = []
    · rw [w.pullList_nil _ h] at hmem
      simp at hmem
    · simp only [Windows.pullList, w.next_cons hss h] at hmem
      rcases List.mem_cons.mp hmem with rfl | hmem'
      · exact Nat.le_add_right _ _
      · exact ih (Windows.mk
            (if w.size < w.elements.length then w.elements.drop w.step else [])
            w.size w.step (w.start + w.step)) hss win hmem'

/-- Every window except the final one spans exactly `size` indices. -/
theorem Windows.pullList_dropLast_size {T : Type} :
    ∀ (fuel : Nat) (w : Windows T), 0 < w.step → w.step ≤ w.size →
      w.len ≤ fuel →
      ∀ win ∈ (w.pullList fuel).dropLast, win.end_ - win.start = w.size := by
  intro fuel
  induction fuel with
  | zero =>
    intro w _ _ _ win hmem
    simp [Windows.pullList] at hmem
  | succ n ih =>
    intro w hstep hss hf win hmem
    by_cases h : w.elements = []
    · rw [w.pullList_nil _ h] at hmem
      simp at hmem
    · have hw' := w.len_succ hstep hss h (w.start + w.step)
      simp only [Windows.pullList, w.next_cons hss h] at hmem
      rcases hrest : (Windows.mk
          (if w.size < w.elements.length then w.elements.drop w.step else [])
          w.size w.step (w.start + w.step)).pullList n with _ | ⟨b, l⟩
      · rw [hrest] at hmem
        simp at hmem
      · rw [hrest, List.dropLast_cons₂] at hmem
        have hrlen := Windows.pullList_length n (Windows.mk
            (if w.size < w.elements.length then w.elements.drop w.step else [])
            w.size w.step (w.start + w.step)) hstep hss (by omega)
        rw [hrest] at hrlen
        have hlen2 : 0 < (Windows.mk
            (if w.size < w.elements.length then w.elements.drop w.step else [])
            w.size w.step (w.start + w.step)).len := by
          rw [← hrlen]
          simp
        have hne2 : (if w.size < w.elements.length then w.elements.drop w.step else [])
            ≠ [] := by
          intro hq
          have h0 : (Windows.mk
              (if w.size < w.elements.length then w.elements.drop w.step else [])
              w.size w.step (w.start + w.step)).len = 0 :=
            (Windows.len_eq_zero _).mpr hq
          omega
        have hsc : w.size < w.elements.length := by
          by_contra hqq
          rw [if_neg hqq] at hne2
          exact hne2 rfl
        rcases List.mem_cons.mp hmem with rfl | hmem'
        · have hnl : ¬ w.elements.length < w.size := by omega
          simp only [if_neg hnl]
          show w.start + w.size - w.start = w.size
          omega
        · have hih := ih (Windows.mk
              (if w.size < w.elements.length then w.elements.drop w.step else [])
              w.size w.step (w.start + w.step)) hstep hss (by omega) win
          rw [hrest] at hih
          exact hih hmem'

/-- The final window's start `(len - 1) * step` lies inside the remaining
view, and from it at most `size` elements remain. -/
theorem Windows.last_start_bounds {T : Type} (w : Windows T)
    (hsize : 0 < w.size) (hstep : 0 < w.step) (hss : w.step ≤ w.size)
    (h : w.elements ≠ []) :
    (w.len - 1) * w.step < w.elements.length ∧
      w.elements.length ≤ (w.len - 1) * w.step + w.size := by
  have hL : 0 < w.elements.length := List.length_pos.mpr h
  rcases le_or_lt w.elements.length w.size with hc | hc
  · rw [w.len_of_le h hc]
    constructor
    · simpa using hL
    · simpa using hc
  · rw [w.len_formula h]
    have hdm := Nat.div_add_mod (w.elements.length - w.size) w.step
    have hr : (w.elements.length - w.size) % w.step < w.step :=
      Nat.mod_lt _ hstep
    set t := w.elements.length - w.size with htdef
    set q := t / w.step with hqdef
    set r := t % w.step with hrdef
    have hq : q * w.step + r = t := by
      rw [mul_comm]
      exact hdm
    by_cases hm : r = 0
    · rw [if_pos hm]
      simp only [Nat.add_zero, Nat.add_sub_cancel]
      set Q := q * w.step with hQdef
      omega
    · rw [if_neg hm]
      simp only [Nat.add_sub_cancel]
      rw [add_one_mul]
      set Q := q * w.step with hQdef
      omega

theorem Windows.pullList_getLast {T : Type} :
    ∀ (fuel : Nat) (w : Windows T), 0 < w.step → w.step ≤ w.size →
      w.elements ≠ [] → w.len ≤ fuel →
      (w.pullList fuel).getLast? = some ⟨w.start + (w.len - 1) * w.step,
        w.start + w.elements.length,
        w.elements.drop ((w.len - 1) * w.step)⟩ := by
  intro fuel
  induction fuel with
  | zero =>
    intro w hstep hss h hf
    have := w.len_pos h
    omega
  | succ n ih =>
    intro w hstep hss h hf
    rcases le_or_lt w.elements.length w.size with hc | hc
    · have hlen1 : w.len = 1 := w.len_of_le h hc
      have hnl : ¬ w.size < w.elements.length := by omega
      simp only [Windows.pullList, w.next_cons hss h, if_neg hnl]
      rw [Windows.pullList_nil _ _ rfl, hlen1]
      have hsz : (if w.elements.length < w.size then w.elements.length else w.size)
          = w.elements.length := by
        by_cases hq : w.elements.length < w.size
        · rw [if_pos hq]
        · rw [if_neg hq]
          omega
      rw [hsz]
      simp [List.take_length]
    · have h2 : 1 < w.len := (w.one_lt_len_iff hstep h).mpr hc
      have hw' := w.len_succ hstep hss h (w.start + w.step)
      rw [if_pos hc] at hw'
      have hne' : w.elements.drop w.step ≠ [] := by
        have hdl : (w.elements.drop w.step).length = w.elements.length - w.step :=
          List.length_drop _ _
        intro hq
        rw [hq] at hdl
        simp only [List.length_nil] at hdl
        omega
      simp only [Windows.pullList, w.next_cons hss h, if_pos hc]
      have hih := ih (Windows.mk (w.elements.drop w.step) w.size w.step
          (w.start + w.step)) hstep hss hne' (by omega)
      have hrlen := Windows.pullList_length n (Windows.mk (w.elements.drop w.step)
          w.size w.step (w.start + w.step)) hstep hss (by omega)
      obtain ⟨b, l, hbl⟩ : ∃ b l, (Windows.mk (w.elements.drop w.step) w.size w.step
          (w.start + w.step)).pullList n = b :: l := by
        rcases hq : (Windows.mk (w.elements.drop w.step) w.size w.step
            (w.start + w.step)).pullList n with _ | ⟨b, l⟩
        · rw [hq] at hrlen
          simp only [List.length_nil] at hrlen
          omega
        · exact ⟨b, l, rfl⟩
      rw [hbl] at hih
      rw [hbl, List.getLast?_cons_cons, hih]
      set m := (Windows.mk (w.elements.drop w.step) w.size w.step
          (w.start + w.step)).len with hmdef
      have hm1 : m - 1 + 1 = m := by omega
      have hkey : (m - 1) * w.step + w.step = m * w.step := by
        conv_rhs => rw [← hm1]
        rw [add_one_mul]
      have hlm : w.len - 1 = m := by omega
      simp only [Option.some.injEq, Window.mk.injEq]
      refine ⟨?_, ?_, ?_⟩
      · show w.start + w.step + (m - 1) * w.step = w.start + (w.len - 1) * w.step
        rw [hlm, ← hkey]
        ring
      · show w.start + w.step + (w.elements.drop w.step).length
            = w.start + w.elements.length
        rw [List.length_drop]
        omega
      · show (w.elements.drop w.step).drop ((m - 1) * w.step)
            = w.elements.drop ((w.len - 1) * w.step)
        rw [List.drop_drop, hlm, ← hkey]
        congr 1
        exact Nat.add_comm _ _

theorem Windows.last_eq {T : Type} (w : Windows T)
    (hsize : 0 < w.size) (hstep : 0 < w.step) (hss : w.step ≤ w.size)
    (h : w.elements ≠ []) :
    w.last = .ok (some ⟨(w.len - 1) * w.step, w.elements.length,
      w.elements.drop ((w.len - 1) * w.step)⟩) := by
  obtain ⟨hb1, hb2⟩ := w.last_start_bounds hsize hstep hss h
  have hem : w.elements.isEmpty = false := by simp [List.isEmpty_iff, h]
  simp only [Windows.last, hem, sliceFrom, Window.new, if_pos hb1.le]
  simp

theorem sliceRange_length {T : Type} {xs : List T} {i j : Nat} {v : List T}
    (h : sliceRange xs i j = some v) : v.length = j - i := by
  by_cases hc : i ≤ j ∧ j ≤ xs.length
  · rw [sliceRange, if_pos hc] at h
    injection h with h
    subst h
    rw [List.length_take, List.length_drop]
    omega
  · rw [sliceRange, if_neg hc] at h
    cases h

theorem Windows.next_emit_len {T : Type} (w : Windows T) (win : Window (List T))
    (w' : Windows T) (hss : w.step ≤ w.size)
    (hok : w.next = .ok (some win, w')) : win.end_ - win.start = win.value.length := by
  by_cases h : w.elements = []
  · rw [w.next_empty h] at hok
    simp at hok
  · rw [w.next_cons hss h] at hok
    simp only [Except.ok.injEq, Prod.mk.injEq, Option.some.injEq] at hok
    obtain ⟨hwin, -⟩ := hok
    subst hwin
    show w.start + (if w.elements.length < w.size then w.elements.length else w.size)
        - w.start
      = (w.elements.take
          (if w.elements.length < w.size then w.elements.length else w.size)).length
    rw [List.length_take]
    split_ifs with hc
    · omega
    · omega

theorem Windows.nth_emit_len {T : Type} (w : Windows T) (n : Nat)
    (win : Window (List T)) (w' : Windows T)
    (hok : w.nth n = .ok (some win, w')) :
    win.end_ - win.start = win.value.length := by
  simp only [Windows.nth] at hok
  split at hok
  · cases hok
  · split at hok
    · simp at hok
    · rcases hsr : sliceRange w.elements (n * w.step)
          (n * w.step + (if w.elements.length < w.size then w.elements.length else w.size))
        with _ | v
      · rw [hsr] at hok
        simp at hok
      · rw [hsr] at hok
        simp only [Window.new] at hok
        rw [if_pos (Nat.le_add_right _ _)] at hok
        rcases hsf : sliceFrom w.elements (n * w.step + w.step) with _ | rest
        · rw [hsf] at hok
          simp at hok
        · rw [hsf] at hok
          simp only [Except.ok.injEq, Prod.mk.injEq, Option.some.injEq] at hok
          obtain ⟨hwin, -⟩ := hok
          subst hwin
          exact (sliceRange_length hsr).symm

/-! ### The claims -/

/-- Claim C1: for every collection and valid parameters (`size > 0`,
`step > 0`, `step ≤ size`), pulling windows from a freshly constructed
generator via `next` until exhaustion yields exactly `len` windows, with
strictly increasing `start` and `start ≤ end` throughout. -/
theorem claim1_advance_yields_len_windows (T : Type) (xs : List T)
    (size step fuel : Nat) (hsize : 0 < size) (hstep : 0 < step)
    (hss : step ≤ size) (hfuel : (Windows.mk xs size step 0).len ≤ fuel) :
    ((Windows.mk xs size step 0).pullList fuel).length
        = (Windows.mk xs size step 0).len
      ∧ ((Windows.mk xs size step 0).pullList fuel).Pairwise
          (fun a b => a.start < b.start)
      ∧ ∀ win ∈ (Windows.mk xs size step 0).pullList fuel,
          win.start ≤ win.end_ :=
  ⟨Windows.pullList_length fuel _ hstep hss hfuel,
   Windows.pullList_pairwise fuel _ hstep hss,
   Windows.pullList_start_le_end fuel _ hss⟩

/-- Witness for claim C1 on `[1,2,3,4]` with size 2, step 1. -/
theorem claim1_witness :
    ((Windows.mk ([1, 2, 3, 4] : List Nat) 2 1 0).pullList 5).length
        = (Windows.mk ([1, 2, 3, 4] : List Nat) 2 1 0).len
      ∧ ((Windows.mk ([1, 2, 3, 4] : List Nat) 2 1 0).pullList 5).Pairwise
          (fun a b => a.start < b.start)
      ∧ ∀ win ∈ (Windows.mk ([1, 2, 3, 4] : List Nat) 2 1 0).pullList 5,
          win.start ≤ win.end_ :=
  claim1_advance_yields_len_windows Nat [1, 2, 3, 4] 2 1 5
    (by decide) (by decide) (by decide) (by decide)

/-- Claim C2: for every valid generator state, every emitted window except
the final one spans exactly `size` indices, and the final one spans between
1 and `size` indices. -/
theorem claim2_window_sizes (T : Type) (w : Windows T) (fuel : Nat)
    (hsize : 0 < w.size) (hstep : 0 < w.step) (hss : w.step ≤ w.size)
    (hfuel : w.len ≤ fuel) :
    (∀ win ∈ (w.pullList fuel).dropLast, win.end_ - win.start = w.size)
      ∧ ∀ lw, (w.pullList fuel).getLast? = some lw →
          1 ≤ lw.end_ - lw.start ∧ lw.end_ - lw.start ≤ w.size := by
  refine ⟨Windows.pullList_dropLast_size fuel w hstep hss hfuel, ?_⟩
  intro lw hlast
  by_cases h : w.elements = []
  · rw [w.pullList_nil _ h] at hlast
    cases hlast
  · rw [Windows.pullList_getLast fuel w hstep hss h hfuel] at hlast
    injection hlast with hlw
    subst hlw
    obtain ⟨hb1, hb2⟩ := w.last_start_bounds hsize hstep hss h
    show 1 ≤ w.start + w.elements.length - (w.start + (w.len - 1) * w.step)
        ∧ w.start + w.elements.length - (w.start + (w.len - 1) * w.step) ≤ w.size
    set A := (w.len - 1) * w.step with hA
    omega

/-- Witness for claim C2 on `[1,2,3,4,5,6]` with size 3, step 2. -/
theorem claim2_witness :
    (∀ win ∈ ((Windows.mk ([1, 2, 3, 4, 5, 6] : List Nat) 3 2 0).pullList 3).dropLast,
        win.end_ - win.start = 3)
      ∧ ∀ lw, ((Windows.mk ([1, 2, 3, 4, 5, 6] : List Nat) 3 2 0).pullList 3).getLast?
            = some lw →
          1 ≤ lw.end_ - lw.start ∧ lw.end_ - lw.start ≤ 3 :=
  claim2_window_sizes Nat (Windows.mk [1, 2, 3, 4, 5, 6] 3 2 0) 3
    (by decide) (by decide) (by decide) (by decide)

/-- Claim C3: in every generator state, also after partial consumption,
`len` agrees with the spec formula `tail / step + (1 if tail % step != 0
else 0) + 1` on non-empty views (`tail = max(0, remaining - size)`), and 0 on
the empty view; as a pure function of the state it is idempotent. -/
theorem claim3_length_formula (T : Type) (w : Windows T) :
    w.len = lenSpec w := by
  by_cases h : w.elements = []
  · rw [w.len_eq_zero.mpr h]
    rw [lenSpec, if_pos (by simp [h])]
  · rw [w.len_formula h]
    simp only [lenSpec, if_neg (show ¬ w.elements.length = 0 by simp [h])]
    rw [Nat.zero_max]
    by_cases hm : (w.elements.length - w.size) % w.step = 0
    · rw [if_pos hm, if_neg (by simpa using hm)]
    · rw [if_neg hm, if_pos hm]

/-- Claim C4 fails on the code: with collection `[1,2,3,4]`, size 3, step 2,
position `n = 1` is in range (`len = 2`) and exhaustive pulling yields
`(2, 4, [3,4])` as the second window, yet `nth 1` takes the slice `[2..5]`
of a 4-element view, which is out of bounds, and panics. -/
theorem claim4_nth_in_range_panics :
    (Windows.mk ([1, 2, 3, 4] : List Nat) 3 2 0).len = 2
      ∧ (Windows.mk ([1, 2, 3, 4] : List Nat) 3 2 0).pullList 3
          = [Window.mk 0 3 [1, 2, 3], Window.mk 2 4 [3, 4]]
      ∧ (Windows.mk ([1, 2, 3, 4] : List Nat) 3 2 0).nth 1 = .error () :=
  ⟨rfl, rfl, rfl⟩

/-- Claim C5 fails on the code: on an empty remaining view, `next` and
`last` signal exhaustion (and `next` leaves the state unchanged, so the
generator stays exhausted), but `nth` evaluates `self.len() - 1` with
`len() = 0`, underflows, and panics instead of signalling exhaustion. -/
theorem claim5_empty_seek_panics :
    (Windows.mk ([] : List Nat) 2 1 0).next
        = .ok (none, Windows.mk ([] : List Nat) 2 1 0)
      ∧ (Windows.mk ([] : List Nat) 2 1 0).last = .ok none
      ∧ (Windows.mk ([] : List Nat) 2 1 0).nth 0 = .error ()
      ∧ (Windows.mk ([] : List Nat) 2 1 0).nth 5 = .error () :=
  ⟨rfl, rfl, rfl, rfl⟩

/-- Claim C6: on a freshly constructed generator over a non-empty
collection, `last` returns exactly the final window of exhaustive pulling,
namely the window from `(len - 1) * step` to the end of the view, spanning
between 1 and `size` elements; in the embedding `last` takes no state and
returns none, so it cannot mutate the generator. -/
theorem claim6_last_matches_final_pull (T : Type) (xs : List T)
    (size step fuel : Nat) (hsize : 0 < size) (hstep : 0 < step)
    (hss : step ≤ size) (hne : xs ≠ [])
    (hfuel : (Windows.mk xs size step 0).len ≤ fuel) :
    (Windows.mk xs size step 0).last
        = .ok (some ⟨((Windows.mk xs size step 0).len - 1) * step, xs.length,
            xs.drop (((Windows.mk xs size step 0).len - 1) * step)⟩)
      ∧ ((Windows.mk xs size step 0).pullList fuel).getLast?
          = some ⟨((Windows.mk xs size step 0).len - 1) * step, xs.length,
              xs.drop (((Windows.mk xs size step 0).len - 1) * step)⟩
      ∧ 1 ≤ xs.length - ((Windows.mk xs size step 0).len - 1) * step
      ∧ xs.length - ((Windows.mk xs size step 0).len - 1) * step ≤ size := by
  obtain ⟨hb1, hb2⟩ :=
    (Windows.mk xs size step 0).last_start_bounds hsize hstep hss hne
  have hb1' : ((Windows.mk xs size step 0).len - 1) * step < xs.length := by
    simpa using hb1
  have hb2' : xs.length ≤ ((Windows.mk xs size step 0).len - 1) * step + size := by
    simpa using hb2
  refine ⟨(Windows.mk xs size step 0).last_eq hsize hstep hss hne, ?_, ?_, ?_⟩
  · have hgl := Windows.pullList_getLast fuel (Windows.mk xs size step 0)
      hstep hss hne hfuel
    simpa using hgl
  · set A := ((Windows.mk xs size step 0).len - 1) * step with hA
    omega
  · set A := ((Windows.mk xs size step 0).len - 1) * step with hA
    omega

/-- Witness for claim C6 on `[1,2,3,4]` with size 3, step 2. -/
theorem claim6_witness :
    (Windows.mk ([1, 2, 3, 4] : List Nat) 3 2 0).last
        = .ok (some (Window.mk 2 4 [3, 4]))
      ∧ ((Windows.mk ([1, 2, 3, 4] : List Nat) 3 2 0).pullList 2).getLast?
          = some (Window.mk 2 4 [3, 4])
      ∧ 1 ≤ 4 - 2 ∧ 4 - 2 ≤ 3 :=
  claim6_last_matches_final_pull Nat [1, 2, 3, 4] 3 2 2 (by decide) (by decide)
    (by decide) (by decide) (by decide)

/-- Claim C7: generator construction fails exactly when `size = 0`,
`step = 0` or `step > size`, and otherwise yields the whole collection as
view with cursor 0; direct `Window` construction fails exactly when
`start > end`. -/
theorem claim7_construction (T : Type) (xs : List T) (size step : Nat)
    (V : Type) (s e : Nat) (v : V) :
    (Windows.new xs size step = none ↔ size = 0 ∨ step = 0 ∨ size < step)
      ∧ (Windows.new xs size step = some (Windows.mk xs size step 0)
          ↔ 0 < size ∧ 0 < step ∧ step ≤ size)
      ∧ (Window.new s e v = none ↔ e < s)
      ∧ (Window.new s e v = some (Window.mk s e v) ↔ s ≤ e) := by
  refine ⟨?_, ?_, ?_, ?_⟩
  · unfold Windows.new
    split_ifs with hc
    · constructor
      · intro hsome
        cases hsome
      · intro hd
        exact absurd hd (by omega)
    · constructor
      · intro _
        omega
      · intro _
        rfl
  · unfold Windows.new
    split_ifs with hc
    · constructor
      · intro _
        exact hc
      · intro _
        rfl
    · constructor
      · intro hsome
        cases hsome
      · intro hd
        exact absurd hd hc
  · unfold Window.new
    split_ifs with hc
    · constructor
      · intro hsome
        cases hsome
      · intro hd
        exact absurd hd (by omega)
    · constructor
      · intro _
        omega
      · intro _
        rfl
  · unfold Window.new
    split_ifs with hc
    · constructor
      · intro _
        exact hc
      · intro _
        rfl
    · constructor
      · intro hsome
        cases hsome
      · intro hd
        exact absurd hd hc

/-- Witness for claim C7 at concrete parameters. -/
theorem claim7_witness :
    Windows.new ([1, 2, 3] : List Nat) 2 1 = some (Windows.mk [1, 2, 3] 2 1 0)
      ∧ Windows.new ([1, 2, 3] : List Nat) 2 3 = none
      ∧ Window.new 1 5 (0 : Nat) = some (Window.mk 1 5 0)
      ∧ Window.new 5 1 (0 : Nat) = none :=
  ⟨(claim7_construction Nat [1, 2, 3] 2 1 Nat 1 5 0).2.1.mpr (by decide),
   (claim7_construction Nat [1, 2, 3] 2 3 Nat 1 5 0).1.mpr (by decide),
   (claim7_construction Nat [1, 2, 3] 2 1 Nat 1 5 0).2.2.2.mpr (by decide),
   (claim7_construction Nat [1, 2, 3] 2 1 Nat 5 1 0).2.2.1.mpr (by decide)⟩

/-- Claim C8: `map f` keeps `start` and `end` and applies `f` to the value,
while `flat_map g` returns `g value` outright, discarding the original
range. -/
theorem claim8_map_flat_map (V U : Type) (w : Window V) (f : V → U)
    (g : V → Window U) (hw : w.start ≤ w.end_) :
    w.map f = some (Window.mk w.start w.end_ (f w.value))
      ∧ w.flat_map g = g w.value := by
  constructor
  · simp only [Window.map, Window.new, if_pos hw]
  · rfl

/-- Witness for claim C8 on the window `(1, 10, 3)`. -/
theorem claim8_witness :
    (Window.mk 1 10 (3 : Nat)).map (fun x => x + 1) = some (Window.mk 1 10 4)
      ∧ (Window.mk 1 10 (3 : Nat)).flat_map (fun x => Window.mk 0 0 x)
          = Window.mk 0 0 3 :=
  claim8_map_flat_map Nat Nat (Window.mk 1 10 3) (fun x => x + 1)
    (fun x => Window.mk 0 0 x) (by decide)

/-- Claim C9: under valid parameters, `next` never reaches an out-of-bounds
slice in any state, so advance-only iteration never panics and its
embedding is total. -/
theorem claim9_advance_total (T : Type) (w : Windows T)
    (hsize : 0 < w.size) (hstep : 0 < w.step) (hss : w.step ≤ w.size) :
    w.next ≠ Except.error () :=
  w.next_ne_error hss

/-- Witness for claim C9 on `[1,2]` with size 2, step 1. -/
theorem claim9_witness :
    (Windows.mk ([1, 2] : List Nat) 2 1 0).next ≠ Except.error () :=
  claim9_advance_total Nat (Windows.mk [1, 2] 2 1 0) (by decide) (by decide)
    (by decide)

/-- Claim C10: every window successfully emitted by `next` or by an
in-range `nth` spans exactly as many indices as its payload has
elements. -/
theorem claim10_emitted_window_spans_payload (T : Type) (w : Windows T)
    (n : Nat) (win win2 : Window (List T)) (w' w2 : Windows T)
    (hss : w.step ≤ w.size) :
    (w.next = .ok (some win, w') → win.end_ - win.start = win.value.length)
      ∧ (w.nth n = .ok (some win2, w2) →
          win2.end_ - win2.start = win2.value.length) :=
  ⟨fun hok => w.next_emit_len win w' hss hok,
   fun hok => w.nth_emit_len n win2 w2 hok⟩

/-- Witness for claim C10: the first `next` pull and `nth 1` on
`[1,2,3,4]`, size 2, step 1. -/
theorem claim10_witness :
    ((Window.mk 0 2 ([1, 2] : List Nat)).end_
        - (Window.mk 0 2 ([1, 2] : List Nat)).start
        = (Window.mk 0 2 ([1, 2] : List Nat)).value.length)
      ∧ ((Window.mk 1 3 ([2, 3] : List Nat)).end_
        - (Window.mk 1 3 ([2, 3] : List Nat)).start
        = (Window.mk 1 3 ([2, 3] : List Nat)).value.length) :=
  ⟨(claim10_emitted_window_spans_payload Nat (Windows.mk [1, 2, 3, 4] 2 1 0) 1
      (Window.mk 0 2 [1, 2]) (Window.mk 1 3 [2, 3])
      (Windows.mk [2, 3, 4] 2 1 1) (Windows.mk [3, 4] 2 1 2) (by decide)).1 rfl,
   (claim10_emitted_window_spans_payload Nat (Windows.mk [1, 2, 3, 4] 2 1 0) 1
      (Window.mk 0 2 [1, 2]) (Window.mk 1 3 [2, 3])
      (Windows.mk [2, 3, 4] 2 1 1) (Windows.mk [3, 4] 2 1 2) (by decide)).2 rfl⟩

end Windowrs
